import Mathlib

/-!
# fogcoord.c: explicit fog coordinates

A shallow embedding of `src/OG6V/ch6/fogcoord.c`.  The program keeps three
globals `f1 f2 f3` and otherwise talks to the OpenGL / GLUT context.  The
context is modelled as explicit state: every `gl*` / `glut*` entry point the
program calls is a function on `World`, and the four program functions
`init`, `display`, `reshape`, `keyboard` are the same call sequences as in the
C source.

A `GLfloat` is the rational number it stands for.  The constants of the
program (0.25, 1.0, 5.0, 10.0, ...) are dyadic and exact.  The only arithmetic
of the program is `f = f + 0.25` and `f = f - 0.25` on the globals: the sum is
formed in double precision (`0.25` is a `double` constant) and the assignment
stores it into a 32-bit `GLfloat`, so `keyboard` rounds it to binary64 and then
to binary32 (`toGLfloat`), to nearest with ties to even.
-/

namespace FogCoord

/-- The OpenGL enumerants the program passes to the context. -/
inductive GLenum where
  | GL_FOG
  | GL_FOG_MODE
  | GL_EXP
  | GL_FOG_COLOR
  | GL_FOG_DENSITY
  | GL_FOG_HINT
  | GL_DONT_CARE
  | GL_FOG_COORDINATE_SOURCE_EXT
  | GL_FOG_COORDINATE_EXT
  | GL_FRAGMENT_DEPTH_EXT
  | GL_COLOR_BUFFER_BIT
  | GL_TRIANGLES
  | GL_PROJECTION
  | GL_MODELVIEW
  deriving DecidableEq, Repr

open GLenum

/-- One factor multiplied onto a matrix of the context: the program only ever
multiplies by a perspective matrix (`gluPerspective`) or by a translation
(`glTranslatef`). -/
inductive MatOp where
  | perspective (fovy aspect zNear zFar : ℚ)
  | translate (x y z : ℚ)
  deriving DecidableEq, Repr

/-- A matrix of the context, kept as the factors multiplied onto the identity
since the last `glLoadIdentity`, in call order.  `[]` is the identity. -/
abbrev GLMatrix := List MatOp

/-- The calls a frame is made of, as issued by `display`. -/
inductive Cmd where
  | clear (mask : GLenum)
  | color3f (r g b : ℚ)
  | glBegin (mode : GLenum)
  | fogCoordf (coord : ℚ)
  | vertex3f (x y z : ℚ)
  | glEnd
  | swapBuffers
  deriving DecidableEq, Repr

/-- An RGBA colour. -/
structure Color4 where
  r : ℚ
  g : ℚ
  b : ℚ
  a : ℚ
  deriving DecidableEq, Repr

/-- The viewport rectangle. -/
structure Viewport where
  x : Int
  y : Int
  width : Int
  height : Int
  deriving DecidableEq, Repr

/-- The program globals `f1 f2 f3` together with the part of the OpenGL / GLUT
context the program reads or writes. -/
structure World where
  /-- The globals declared by `static GLfloat f1, f2, f3;`. -/
  f1 : ℚ
  f2 : ℚ
  f3 : ℚ
  /-- Whether `GL_FOG` is enabled. -/
  fogEnabled : Bool
  /-- The value of `GL_FOG_MODE`. -/
  fogMode : GLenum
  /-- The value of `GL_FOG_COLOR`. -/
  fogColor : Color4
  /-- The value of `GL_FOG_DENSITY`. -/
  fogDensity : ℚ
  /-- The value of `GL_FOG_HINT`. -/
  fogHint : GLenum
  /-- The value of `GL_FOG_COORDINATE_SOURCE_EXT`: `GL_FOG_COORDINATE_EXT` (explicit
  per-vertex coordinate) or `GL_FRAGMENT_DEPTH_EXT` (depth derived). -/
  fogCoordSrc : GLenum
  /-- The colour set by `glClearColor`. -/
  clearColor : Color4
  /-- The rectangle set by `glViewport`. -/
  viewport : Viewport
  /-- The mode set by `glMatrixMode`. -/
  matrixMode : GLenum
  /-- The projection matrix. -/
  projection : GLMatrix
  /-- The modelview matrix. -/
  modelview : GLMatrix
  /-- The drawing calls issued so far, oldest first. -/
  commands : List Cmd
  /-- Set by `glutPostRedisplay`: a redraw has been requested. -/
  redisplay : Bool
  deriving DecidableEq, Repr

/-- The process at the call of `init()` in `main`: the statics are zero
initialised, the context is in the OpenGL default state and the window is
500 by 500 (`glutInitWindowSize(500, 500)`). -/
def World.start : World where
  f1 := 0
  f2 := 0
  f3 := 0
  fogEnabled := false
  fogMode := GL_EXP
  fogColor := ⟨0, 0, 0, 0⟩
  fogDensity := 1
  fogHint := GL_DONT_CARE
  fogCoordSrc := GL_FRAGMENT_DEPTH_EXT
  clearColor := ⟨0, 0, 0, 0⟩
  viewport := ⟨0, 0, 500, 500⟩
  matrixMode := GL_MODELVIEW
  projection := []
  modelview := []
  commands := []
  redisplay := false

/-! ## The context entry points -/

/-- The call `glEnable(cap)`; the program only enables `GL_FOG`. -/
def glEnable (cap : GLenum) (w : World) : World :=
  if cap = GL_FOG then { w with fogEnabled := true } else w

/-- The call `glFogi(pname, param)`; a value the parameter does not accept is
rejected by the context and leaves the state as it was. -/
def glFogi (pname param : GLenum) (w : World) : World :=
  if pname = GL_FOG_MODE then
    if param = GL_EXP then { w with fogMode := param } else w
  else if pname = GL_FOG_COORDINATE_SOURCE_EXT then
    if param = GL_FOG_COORDINATE_EXT ∨ param = GL_FRAGMENT_DEPTH_EXT then
      { w with fogCoordSrc := param }
    else w
  else w

/-- The call `glFogfv(pname, params)`; the program only sets `GL_FOG_COLOR`. -/
def glFogfv (pname : GLenum) (params : Color4) (w : World) : World :=
  if pname = GL_FOG_COLOR then { w with fogColor := params } else w

/-- The call `glFogf(pname, param)`; the program only sets `GL_FOG_DENSITY`. -/
def glFogf (pname : GLenum) (param : ℚ) (w : World) : World :=
  if pname = GL_FOG_DENSITY then { w with fogDensity := param } else w

/-- The call `glHint(target, mode)`; the program only hints `GL_FOG_HINT`, with
`GL_DONT_CARE`. -/
def glHint (target mode : GLenum) (w : World) : World :=
  if target = GL_FOG_HINT ∧ mode = GL_DONT_CARE then { w with fogHint := mode } else w

/-- The call `glClearColor(r, g, b, a)`. -/
def glClearColor (r g b a : ℚ) (w : World) : World :=
  { w with clearColor := ⟨r, g, b, a⟩ }

/-- Issue one drawing call. -/
def emit (c : Cmd) (w : World) : World :=
  { w with commands := w.commands ++ [c] }

/-- The call `glClear(mask)`. -/
def glClear (mask : GLenum) (w : World) : World := emit (.clear mask) w

/-- The call `glColor3f(r, g, b)`. -/
def glColor3f (r g b : ℚ) (w : World) : World := emit (.color3f r g b) w

/-- The call `glBegin(mode)`. -/
def glBegin (mode : GLenum) (w : World) : World := emit (.glBegin mode) w

/-- The call `glFogCoordfEXT(coord)`. -/
def glFogCoordfEXT (coord : ℚ) (w : World) : World := emit (.fogCoordf coord) w

/-- The call `glVertex3f(x, y, z)`. -/
def glVertex3f (x y z : ℚ) (w : World) : World := emit (.vertex3f x y z) w

/-- The call `glEnd()`. -/
def glEnd (w : World) : World := emit .glEnd w

/-- The call `glutSwapBuffers()`. -/
def glutSwapBuffers (w : World) : World := emit .swapBuffers w

/-- The call `glutPostRedisplay()`: mark the window as needing a redraw. -/
def glutPostRedisplay (w : World) : World := { w with redisplay := true }

/-- The call `glViewport(x, y, width, height)`; a negative size is rejected by the
context and leaves the viewport as it was. -/
def glViewport (x y width height : Int) (w : World) : World :=
  if width < 0 ∨ height < 0 then w else { w with viewport := ⟨x, y, width, height⟩ }

/-- The call `glMatrixMode(mode)`. -/
def glMatrixMode (mode : GLenum) (w : World) : World :=
  if mode = GL_PROJECTION ∨ mode = GL_MODELVIEW then { w with matrixMode := mode } else w

/-- Apply `f` to the matrix selected by the matrix mode. -/
def onCurrentMatrix (f : GLMatrix → GLMatrix) (w : World) : World :=
  if w.matrixMode = GL_PROJECTION then { w with projection := f w.projection }
  else { w with modelview := f w.modelview }

/-- The call `glLoadIdentity()`. -/
def glLoadIdentity (w : World) : World := onCurrentMatrix (fun _ => []) w

/-- The call `gluPerspective(fovy, aspect, zNear, zFar)`: multiply the current matrix
by the perspective matrix. -/
def gluPerspective (fovy aspect zNear zFar : ℚ) (w : World) : World :=
  onCurrentMatrix (fun m => m ++ [.perspective fovy aspect zNear zFar]) w

/-- The call `glTranslatef(x, y, z)`: multiply the current matrix by the translation. -/
def glTranslatef (x y z : ℚ) (w : World) : World :=
  onCurrentMatrix (fun m => m ++ [.translate x y z]) w

/-! ## Floating point -/

/-- Round to the nearest integer, a tie going to the even one. -/
def roundHalfEven (q : ℚ) : ℤ :=
  if q - ⌊q⌋ < 1/2 then ⌊q⌋
  else if 1/2 < q - ⌊q⌋ then ⌊q⌋ + 1
  else if ⌊q⌋ % 2 = 0 then ⌊q⌋ else ⌊q⌋ + 1

/-- Round `q` to the nearest value of the binary floating-point format with
`p` significand bits whose least positive value is `2 ^ emin`, ties to even.
With `2 ^ e ≤ |q| < 2 ^ (e + 1)` the spacing of the format around `q` is
`2 ^ (e - (p - 1))`, and not less than `2 ^ emin` (the subnormal range); `q` is
rounded to a whole number of spacings.  Overflow to infinity is left out: a
binary32 value plus or minus 0.25 never rounds past the largest finite value. -/
def roundBinary (p : ℕ) (emin : ℤ) (q : ℚ) : ℚ :=
  let e := Int.log 2 |q|
  let u := max (e - ((p : ℤ) - 1)) emin
  (roundHalfEven (q / (2 : ℚ) ^ u) : ℚ) * (2 : ℚ) ^ u

/-- Rounding to IEEE 754 binary32 (`float`, `GLfloat`): 24 significand bits,
least positive value `2 ^ (-149)`. -/
def roundF32 (q : ℚ) : ℚ := roundBinary 24 (-149) q

/-- Rounding to IEEE 754 binary64 (`double`): 53 significand bits, least
positive value `2 ^ (-1074)`. -/
def roundF64 (q : ℚ) : ℚ := roundBinary 53 (-1074) q

/-- The value a `GLfloat` variable holds after `f = x`, where `x` is the exact
value of a sum or difference formed in `double`: the arithmetic rounds it to
binary64 and the store to binary32. -/
def toGLfloat (x : ℚ) : ℚ := roundF32 (roundF64 x)

/-! ## The program -/

/-- The function `static void init(void)`. -/
def init (w : World) : World :=
  let fogColor : Color4 := ⟨0, 1/4, 1/4, 1⟩
  let w := { w with f1 := 1 }
  let w := { w with f2 := 5 }
  let w := { w with f3 := 10 }
  let w := glEnable GL_FOG w
  let w := glFogi GL_FOG_MODE GL_EXP w
  let w := glFogfv GL_FOG_COLOR fogColor w
  let w := glFogf GL_FOG_DENSITY (1/4) w
  let w := glHint GL_FOG_HINT GL_DONT_CARE w
  let w := glFogi GL_FOG_COORDINATE_SOURCE_EXT GL_FOG_COORDINATE_EXT w
  glClearColor 0 (1/4) (1/4) 1 w

/-- The function `void display(void)`. -/
def display (w : World) : World :=
  let w := glClear GL_COLOR_BUFFER_BIT w
  let w := glColor3f 1 (3/4) 0 w
  let w := glBegin GL_TRIANGLES w
  let w := glFogCoordfEXT w.f1 w
  let w := glVertex3f 2 (-2) 0 w
  let w := glFogCoordfEXT w.f2 w
  let w := glVertex3f (-2) 0 (-5) w
  let w := glFogCoordfEXT w.f3 w
  let w := glVertex3f 0 2 (-10) w
  let w := glEnd w
  glutSwapBuffers w

/-- The function `void reshape(int w, int h)`. -/
def reshape (w h : Int) (s : World) : World :=
  let s := glViewport 0 0 w h s
  let s := glMatrixMode GL_PROJECTION s
  let s := glLoadIdentity s
  let s := gluPerspective 45 1 (1/4) 25 s
  let s := glMatrixMode GL_MODELVIEW s
  let s := glLoadIdentity s
  glTranslatef 0 0 (-5) s

/-- What a callback leaves behind: the process goes on in a new state, or it
has called `exit(code)`. -/
inductive Outcome where
  | running (w : World)
  | exited (code : Int)
  deriving DecidableEq, Repr

/-- The function `void keyboard(unsigned char key, int x, int y)`. -/
def keyboard (key : Char) (_x _y : Int) (w : World) : Outcome :=
  match key with
  | 'c' =>
    let w := glFogi GL_FOG_COORDINATE_SOURCE_EXT GL_FRAGMENT_DEPTH_EXT w
    .running (glutPostRedisplay w)
  | 'C' =>
    let w := glFogi GL_FOG_COORDINATE_SOURCE_EXT GL_FOG_COORDINATE_EXT w
    .running (glutPostRedisplay w)
  | '1' =>
    let w := { w with f1 := toGLfloat (w.f1 + 1/4) }
    .running (glutPostRedisplay w)
  | '2' =>
    let w := { w with f2 := toGLfloat (w.f2 + 1/4) }
    .running (glutPostRedisplay w)
  | '3' =>
    let w := { w with f3 := toGLfloat (w.f3 + 1/4) }
    .running (glutPostRedisplay w)
  | '8' =>
    if w.f1 > 1/4 then
      let w := { w with f1 := toGLfloat (w.f1 - 1/4) }
      .running (glutPostRedisplay w)
    else .running w
  | '9' =>
    if w.f2 > 1/4 then
      let w := { w with f2 := toGLfloat (w.f2 - 1/4) }
      .running (glutPostRedisplay w)
    else .running w
  | '0' =>
    if w.f3 > 1/4 then
      let w := { w with f3 := toGLfloat (w.f3 - 1/4) }
      .running (glutPostRedisplay w)
    else .running w
  | 'b' =>
    let w := glMatrixMode GL_MODELVIEW w
    let w := glTranslatef 0 0 (-1/4) w
    .running (glutPostRedisplay w)
  | 'f' =>
    let w := glMatrixMode GL_MODELVIEW w
    let w := glTranslatef 0 0 (1/4) w
    .running (glutPostRedisplay w)
  | '\x1b' => .exited 0
  | _ => .running w

/-- A key press as GLUT delivers it: the key and the mouse position. -/
structure KeyEvent where
  key : Char
  x : Int
  y : Int
  deriving DecidableEq, Repr

/-- The event loop handing a sequence of key presses to `keyboard`, one after
the other; nothing is handled once the process has exited. -/
def pressKeys : List KeyEvent → World → Outcome
  | [], w => .running w
  | e :: es, w =>
    match keyboard e.key e.x e.y w with
    | .running w' => pressKeys es w'
    | .exited code => .exited code

/-- A press of `key` with the pointer at the origin. -/
def press (key : Char) : KeyEvent := ⟨key, 0, 0⟩

/-- The translation a matrix stands for when all of its factors are
translations (the product of translations is the translation by the sum);
`none` when a perspective factor is present. -/
def translationOf : GLMatrix → Option (ℚ × ℚ × ℚ)
  | [] => some (0, 0, 0)
  | .translate x y z :: m =>
    (translationOf m).map fun t => (x + t.1, y + t.2.1, z + t.2.2)
  | .perspective _ _ _ _ :: _ => none

/-- The position of the view along the view axis: the z component of the
translation the modelview matrix stands for. -/
def viewZ (w : World) : Option ℚ := (translationOf w.modelview).map fun t => t.2.2

/-- A fog value that is a positive whole number of quarter steps, at most
`2 ^ 24` of them (the value 4194304). -/
def QuarterStep (q : ℚ) : Prop := ∃ n : ℕ, 1 ≤ n ∧ n ≤ 2 ^ 24 ∧ q = n / 4

/-- All three fog values are positive whole numbers of quarter steps. -/
def FogInv (w : World) : Prop := QuarterStep w.f1 ∧ QuarterStep w.f2 ∧ QuarterStep w.f3


/-! ## What each key does -/

theorem keyboard_c (x y : Int) (w : World) :
    keyboard 'c' x y w =
      .running { w with fogCoordSrc := GL_FRAGMENT_DEPTH_EXT, redisplay := true } := rfl

theorem keyboard_C (x y : Int) (w : World) :
    keyboard 'C' x y w =
      .running { w with fogCoordSrc := GL_FOG_COORDINATE_EXT, redisplay := true } := rfl

theorem keyboard_1 (x y : Int) (w : World) :
    keyboard '1' x y w = .running { w with f1 := toGLfloat (w.f1 + 1/4), redisplay := true } := rfl

theorem keyboard_2 (x y : Int) (w : World) :
    keyboard '2' x y w = .running { w with f2 := toGLfloat (w.f2 + 1/4), redisplay := true } := rfl

theorem keyboard_3 (x y : Int) (w : World) :
    keyboard '3' x y w = .running { w with f3 := toGLfloat (w.f3 + 1/4), redisplay := true } := rfl

theorem keyboard_8 (x y : Int) (w : World) :
    keyboard '8' x y w =
      if w.f1 > 1/4 then .running { w with f1 := toGLfloat (w.f1 - 1/4), redisplay := true }
      else .running w := rfl

theorem keyboard_9 (x y : Int) (w : World) :
    keyboard '9' x y w =
      if w.f2 > 1/4 then .running { w with f2 := toGLfloat (w.f2 - 1/4), redisplay := true }
      else .running w := rfl

theorem keyboard_0 (x y : Int) (w : World) :
    keyboard '0' x y w =
      if w.f3 > 1/4 then .running { w with f3 := toGLfloat (w.f3 - 1/4), redisplay := true }
      else .running w := rfl

theorem keyboard_b (x y : Int) (w : World) :
    keyboard 'b' x y w =
      .running { w with matrixMode := GL_MODELVIEW,
                        modelview := w.modelview ++ [.translate 0 0 (-1/4)],
                        redisplay := true } := rfl

theorem keyboard_f (x y : Int) (w : World) :
    keyboard 'f' x y w =
      .running { w with matrixMode := GL_MODELVIEW,
                        modelview := w.modelview ++ [.translate 0 0 (1/4)],
                        redisplay := true } := rfl

theorem keyboard_x (x y : Int) (w : World) : keyboard 'x' x y w = .running w := rfl

theorem keyboard_escape (x y : Int) (w : World) : keyboard '\x1b' x y w = .exited 0 := rfl

/-- The world `init` leaves behind, field by field. -/
theorem init_eq (w : World) :
    init w = { w with f1 := 1, f2 := 5, f3 := 10, fogEnabled := true, fogMode := GL_EXP,
                      fogColor := ⟨0, 1/4, 1/4, 1⟩, fogDensity := 1/4,
                      fogHint := GL_DONT_CARE, fogCoordSrc := GL_FOG_COORDINATE_EXT,
                      clearColor := ⟨0, 1/4, 1/4, 1⟩ } := rfl

/-- The world `reshape` leaves behind when the size is not negative. -/
theorem reshape_eq (w h : Int) (s : World) (hw : 0 ≤ w) (hh : 0 ≤ h) :
    reshape w h s = { s with viewport := ⟨0, 0, w, h⟩, matrixMode := GL_MODELVIEW,
                             projection := [.perspective 45 1 (1/4) 25],
                             modelview := [.translate 0 0 (-5)] } := by
  have hneg : ¬ (w < 0 ∨ h < 0) := by omega
  simp [reshape, glViewport, hneg, glMatrixMode, glLoadIdentity, gluPerspective, glTranslatef,
    onCurrentMatrix]

theorem reshape_modelview (w h : Int) (s : World) :
    (reshape w h s).modelview = [.translate 0 0 (-5)] := by
  by_cases hneg : w < 0 ∨ h < 0 <;>
  simp [reshape, glViewport, hneg, glMatrixMode, glLoadIdentity, gluPerspective, glTranslatef,
    onCurrentMatrix]

theorem reshape_projection (w h : Int) (s : World) :
    (reshape w h s).projection = [.perspective 45 1 (1/4) 25] := by
  by_cases hneg : w < 0 ∨ h < 0 <;>
  simp [reshape, glViewport, hneg, glMatrixMode, glLoadIdentity, gluPerspective, glTranslatef,
    onCurrentMatrix]

/-- The frame `display` issues, appended to the calls issued before. -/
theorem display_eq (w : World) :
    display w = { w with commands := w.commands ++
      [.clear GL_COLOR_BUFFER_BIT, .color3f 1 (3/4) 0, .glBegin GL_TRIANGLES,
       .fogCoordf w.f1, .vertex3f 2 (-2) 0,
       .fogCoordf w.f2, .vertex3f (-2) 0 (-5),
       .fogCoordf w.f3, .vertex3f 0 2 (-10),
       .glEnd, .swapBuffers] } := by
  simp [display, glClear, glColor3f, glBegin, glFogCoordfEXT, glVertex3f, glEnd,
    glutSwapBuffers, emit]

/-! ## Translations -/

theorem translationOf_append_translate (m : GLMatrix) (x y z : ℚ) :
    translationOf (m ++ [.translate x y z]) =
      (translationOf m).map fun t => (t.1 + x, t.2.1 + y, t.2.2 + z) := by
  induction m with
  | nil => simp [translationOf]
  | cons op m ih =>
    cases op with
    | perspective a b c d => simp [translationOf]
    | translate a b c =>
      rw [List.cons_append]
      simp only [translationOf]
      rw [ih]
      cases translationOf m <;> simp [add_assoc]

theorem viewZ_translate (w : World) (m : GLenum) (r : Bool) (z : ℚ) :
    viewZ { w with matrixMode := m, modelview := w.modelview ++ [.translate 0 0 z],
                   redisplay := r } = (viewZ w).map fun d => d + z := by
  simp [viewZ, translationOf_append_translate, Option.map_map, Function.comp_def]

/-! ## Rounding: the quarter grid up to 4194304 is exact -/

theorem roundHalfEven_intCast (n : ℤ) : roundHalfEven (n : ℚ) = n := by
  simp [roundHalfEven]

theorem int_log_two_eq (q : ℚ) (e : ℤ) (h1 : (2 : ℚ) ^ e ≤ q) (h2 : q < (2 : ℚ) ^ (e + 1)) :
    Int.log 2 q = e := by
  have hq : 0 < q := lt_of_lt_of_le (by positivity) h1
  apply le_antisymm
  · have h3 : Int.log 2 q < e + 1 :=
      (Int.lt_zpow_iff_log_lt (by norm_num) hq).1 (by exact_mod_cast h2)
    omega
  · exact (Int.zpow_le_iff_le_log (by norm_num) hq).1 (by exact_mod_cast h1)

theorem roundBinary_repr (p : ℕ) (emin m j : ℤ) (hm : |(m : ℚ)| < (2 : ℚ) ^ p) (hj : emin ≤ j) :
    roundBinary p emin (m * (2 : ℚ) ^ j) = m * (2 : ℚ) ^ j := by
  by_cases hm0 : m = 0
  · subst hm0
    simp [roundBinary, roundHalfEven]
  have h2j : (0 : ℚ) < (2 : ℚ) ^ j := by positivity
  have hq : 0 < |(m : ℚ) * (2 : ℚ) ^ j| := by
    rw [abs_mul, abs_of_pos h2j]
    have : 0 < |(m : ℚ)| := abs_pos.2 (by exact_mod_cast hm0)
    positivity
  have hlt : |(m : ℚ) * (2 : ℚ) ^ j| < ((2 : ℕ) : ℚ) ^ ((p : ℤ) + j) := by
    rw [abs_mul, abs_of_pos h2j, zpow_add₀ (by norm_num)]
    push_cast
    rw [zpow_natCast]
    exact mul_lt_mul_of_pos_right hm h2j
  have he : Int.log 2 |(m : ℚ) * (2 : ℚ) ^ j| < (p : ℤ) + j :=
    (Int.lt_zpow_iff_log_lt (by norm_num) hq).1 hlt
  have hu : max (Int.log 2 |(m : ℚ) * (2 : ℚ) ^ j| - ((p : ℤ) - 1)) emin ≤ j :=
    max_le (by omega) hj
  unfold roundBinary
  simp only []
  generalize max (Int.log 2 |(m : ℚ) * (2 : ℚ) ^ j| - ((p : ℤ) - 1)) emin = u at hu
  obtain ⟨d, rfl⟩ : ∃ d : ℕ, j = u + d := ⟨(j - u).toNat, by omega⟩
  have hdiv : (m : ℚ) * (2 : ℚ) ^ (u + (d : ℤ)) / (2 : ℚ) ^ u = ((m * 2 ^ d : ℤ) : ℚ) := by
    rw [zpow_add₀ (by norm_num), zpow_natCast]
    have hu0 : (2 : ℚ) ^ u ≠ 0 := by positivity
    field_simp
    ring
  rw [hdiv, roundHalfEven_intCast]
  rw [zpow_add₀ (by norm_num), zpow_natCast]
  push_cast
  ring

theorem toGLfloat_quarter (n : ℕ) (h : n ≤ 2 ^ 24) : toGLfloat ((n : ℚ) / 4) = (n : ℚ) / 4 := by
  have h4 : ((n : ℚ) / 4) = ((n : ℤ) : ℚ) * (2 : ℚ) ^ (-2 : ℤ) := by
    rw [zpow_neg]; norm_num; ring
  unfold toGLfloat roundF32 roundF64
  have h64 : roundBinary 53 (-1074) ((n : ℚ) / 4) = (n : ℚ) / 4 := by
    rw [h4]
    apply roundBinary_repr
    · rw [abs_of_nonneg (by positivity)]
      have : (n : ℚ) ≤ 2 ^ 24 := by exact_mod_cast h
      push_cast
      linarith [show (2 : ℚ) ^ 24 < 2 ^ 53 by norm_num]
    · norm_num
  rw [h64]
  rcases Nat.lt_or_ge n (2 ^ 24) with hlt | hge
  · rw [h4]
    apply roundBinary_repr
    · rw [abs_of_nonneg (by positivity)]
      push_cast
      exact_mod_cast hlt
    · norm_num
  · have hn : n = 2 ^ 24 := le_antisymm h hge
    subst hn
    have h5 : (((2 ^ 24 : ℕ) : ℚ) / 4) = ((1 : ℤ) : ℚ) * (2 : ℚ) ^ (22 : ℤ) := by norm_num
    rw [h5]
    apply roundBinary_repr
    · norm_num
    · norm_num

theorem toGLfloat_top : toGLfloat (4194304 + 1/4) = 4194304 := by
  have h4 : (4194304 + 1/4 : ℚ) = ((16777217 : ℤ) : ℚ) * (2 : ℚ) ^ (-2 : ℤ) := by
    rw [zpow_neg]; norm_num
  unfold toGLfloat roundF32 roundF64
  have h64 : roundBinary 53 (-1074) (4194304 + 1/4) = 4194304 + 1/4 := by
    rw [h4]
    apply roundBinary_repr
    · norm_num
    · norm_num
  rw [h64]
  have hlog : Int.log 2 |(4194304 + 1/4 : ℚ)| = 22 := by
    rw [abs_of_pos (by norm_num)]
    apply int_log_two_eq
    · norm_num
    · norm_num
  unfold roundBinary
  simp only [hlog]
  norm_num [roundHalfEven]

/-! ## The fog values stay on the quarter grid at or above one quarter -/

theorem QuarterStep.floor {q : ℚ} (h : QuarterStep q) : 1/4 ≤ q := by
  obtain ⟨n, hn, _, rfl⟩ := h
  have h1 : (1 : ℚ) ≤ n := by exact_mod_cast hn
  linarith

theorem QuarterStep.ceiling {q : ℚ} (h : QuarterStep q) : q ≤ 4194304 := by
  obtain ⟨n, _, hn, rfl⟩ := h
  have h1 : (n : ℚ) ≤ 16777216 := by
    norm_num at hn
    exact_mod_cast hn
  linarith

theorem QuarterStep.multiple {q : ℚ} (h : QuarterStep q) : ∃ n : ℤ, q = n * (1/4) := by
  obtain ⟨n, _, _, rfl⟩ := h
  exact ⟨n, by push_cast; ring⟩

/-- On the grid an increment is exact below 4194304 and is rounded away at
4194304. -/
theorem toGLfloat_add_quarter {q : ℚ} (h : QuarterStep q) :
    toGLfloat (q + 1/4) = min (q + 1/4) 4194304 := by
  obtain ⟨n, hn, hle, rfl⟩ := h
  rcases Nat.lt_or_ge n (2 ^ 24) with hlt | hge
  · have hq : (n : ℚ) / 4 + 1/4 = ((n + 1 : ℕ) : ℚ) / 4 := by push_cast; ring
    have hb : ((n + 1 : ℕ) : ℚ) ≤ 2 ^ 24 := by exact_mod_cast hlt
    rw [hq, toGLfloat_quarter (n + 1) hlt, min_eq_left]
    norm_num at hb ⊢
    linarith
  · have hn' : n = 2 ^ 24 := le_antisymm hle hge
    subst hn'
    have hq : (((2 ^ 24 : ℕ) : ℚ) / 4 + 1/4) = 4194304 + 1/4 := by norm_num
    rw [hq, toGLfloat_top, min_eq_right]
    norm_num

/-- On the grid a decrement from above one quarter is exact. -/
theorem toGLfloat_sub_quarter {q : ℚ} (h : QuarterStep q) (hq : q > 1/4) :
    toGLfloat (q - 1/4) = q - 1/4 := by
  obtain ⟨n, hn, hle, rfl⟩ := h
  obtain ⟨m, rfl⟩ : ∃ m, n = m + 1 := ⟨n - 1, by omega⟩
  have hq' : ((m + 1 : ℕ) : ℚ) / 4 - 1/4 = (m : ℚ) / 4 := by push_cast; ring
  rw [hq', toGLfloat_quarter m (by omega)]

theorem QuarterStep.add {q : ℚ} (h : QuarterStep q) : QuarterStep (toGLfloat (q + 1/4)) := by
  rw [toGLfloat_add_quarter h]
  obtain ⟨n, hn, hle, rfl⟩ := h
  rcases Nat.lt_or_ge n (2 ^ 24) with hlt | hge
  · refine ⟨n + 1, by omega, hlt, ?_⟩
    have hb : ((n + 1 : ℕ) : ℚ) ≤ 2 ^ 24 := by exact_mod_cast hlt
    rw [min_eq_left]
    · push_cast; ring
    · norm_num at hb ⊢
      linarith
  · have hn' : n = 2 ^ 24 := le_antisymm hle hge
    subst hn'
    refine ⟨2 ^ 24, by norm_num, le_refl _, ?_⟩
    rw [min_eq_right] <;> norm_num

theorem QuarterStep.sub {q : ℚ} (h : QuarterStep q) (hq : q > 1/4) :
    QuarterStep (toGLfloat (q - 1/4)) := by
  rw [toGLfloat_sub_quarter h hq]
  obtain ⟨n, hn, hle, rfl⟩ := h
  have h2 : 2 ≤ n := by
    by_contra hlt
    have h1 : n = 1 := by omega
    subst h1
    norm_num at hq
  obtain ⟨m, rfl⟩ : ∃ m, n = m + 1 := ⟨n - 1, by omega⟩
  exact ⟨m, by omega, by omega, by push_cast; ring⟩

theorem init_fogInv (w : World) : FogInv (init w) :=
  ⟨⟨4, by norm_num, by norm_num, by rw [init_eq]; norm_num⟩,
   ⟨20, by norm_num, by norm_num, by rw [init_eq]; norm_num⟩,
   ⟨40, by norm_num, by norm_num, by rw [init_eq]; norm_num⟩⟩

theorem keyboard_fogInv (key : Char) (x y : Int) (w w' : World) (h : FogInv w)
    (hk : keyboard key x y w = .running w') : FogInv w' := by
  obtain ⟨h1, h2, h3⟩ := h
  unfold keyboard at hk
  split at hk
  case h_12 => cases hk; exact ⟨h1, h2, h3⟩
  case h_11 => cases hk
  all_goals
    first
    | (cases hk; first
        | exact ⟨h1, h2, h3⟩
        | exact ⟨h1.add, h2, h3⟩
        | exact ⟨h1, h2.add, h3⟩
        | exact ⟨h1, h2, h3.add⟩)
    | (split at hk <;> cases hk <;> first
        | exact ⟨h1, h2, h3⟩
        | exact ⟨h1.sub (by assumption), h2, h3⟩
        | exact ⟨h1, h2.sub (by assumption), h3⟩
        | exact ⟨h1, h2, h3.sub (by assumption)⟩)

theorem pressKeys_fogInv (es : List KeyEvent) (w w' : World) (h : FogInv w)
    (hk : pressKeys es w = .running w') : FogInv w' := by
  induction es generalizing w with
  | nil => cases hk; exact h
  | cons e es ih =>
    simp only [pressKeys] at hk
    split at hk
    · next w1 h1 => exact ih w1 (keyboard_fogInv _ _ _ _ _ h h1) hk
    · cases hk

theorem pressKeys_cons_running (e : KeyEvent) (es : List KeyEvent) (w w1 : World)
    (h : keyboard e.key e.x e.y w = .running w1) :
    pressKeys (e :: es) w = pressKeys es w1 := by
  simp only [pressKeys, h]

theorem pressKeys_append (as bs : List KeyEvent) (a b : World)
    (h : pressKeys as a = .running b) : pressKeys (as ++ bs) a = pressKeys bs b := by
  induction as generalizing a with
  | nil => cases h; rfl
  | cons e as ih =>
    cases hkey : keyboard e.key e.x e.y a with
    | running w1 =>
      rw [pressKeys_cons_running _ _ _ _ hkey] at h
      rw [List.cons_append, pressKeys_cons_running _ _ _ _ hkey]
      exact ih w1 h
    | exited code =>
      simp only [pressKeys, hkey] at h
      cases h

/-- Pressing `9` over and over: from `f2 = (k + 1) / 4` the value after `n`
presses is `(k - n + 1) / 4`, the subtraction stopping at zero. -/
theorem pressKeys_nine (n k : ℕ) (w : World) (hk : k + 1 ≤ 2 ^ 24)
    (h : w.f2 = ((k : ℚ) + 1) / 4) :
    ∃ w', pressKeys (List.replicate n (press '9')) w = .running w' ∧
      w'.f2 = (((k - n : ℕ) : ℚ) + 1) / 4 := by
  induction n generalizing k w with
  | zero => exact ⟨w, rfl, by simpa using h⟩
  | succ n ih =>
    rw [List.replicate_succ]
    cases k with
    | zero =>
      have hle : ¬ (w.f2 > 1/4) := by rw [h]; norm_num
      have hkey : keyboard (press '9').key (press '9').x (press '9').y w = .running w := by
        show keyboard '9' 0 0 w = _
        rw [keyboard_9, if_neg hle]
      obtain ⟨w', hw', hf⟩ := ih 0 w hk h
      refine ⟨w', ?_, ?_⟩
      · rw [pressKeys_cons_running _ _ _ _ hkey]; exact hw'
      · simpa using hf
    | succ k =>
      have hgt : w.f2 > 1/4 := by
        rw [h]; push_cast
        have hk0 : (0 : ℚ) ≤ k := Nat.cast_nonneg k
        linarith
      have hstep : QuarterStep w.f2 := ⟨k + 2, by omega, by omega, by rw [h]; push_cast; ring⟩
      have hkey : keyboard (press '9').key (press '9').x (press '9').y w =
          .running { w with f2 := toGLfloat (w.f2 - 1/4), redisplay := true } := by
        show keyboard '9' 0 0 w = _
        rw [keyboard_9, if_pos hgt]
      obtain ⟨w', hw', hf⟩ := ih k { w with f2 := toGLfloat (w.f2 - 1/4), redisplay := true }
        (by omega)
        (by show toGLfloat (w.f2 - 1/4) = ((k : ℚ) + 1) / 4
            rw [toGLfloat_sub_quarter hstep hgt, h]; push_cast; ring)
      refine ⟨w', ?_, ?_⟩
      · rw [pressKeys_cons_running _ _ _ _ hkey]; exact hw'
      · rw [hf]; congr 2; norm_cast; omega

/-- Capping twice is capping once. -/
theorem min_add_quarter_cap (f c : ℚ) (hc : 0 ≤ c) :
    min (min (f + 1/4) 4194304 + 1/4 * c) 4194304 = min (f + 1/4 * (c + 1)) 4194304 := by
  rcases le_total (f + 1/4) 4194304 with hle | hge
  · rw [min_eq_left hle]; congr 1; ring
  · rw [min_eq_right hge, min_eq_right (by linarith), min_eq_right (by linarith)]

/-- A run of the increment keys from a state on the grid: every fog value
grows by a quarter for each press of its key until it stands at 4194304, and
stays there. -/
theorem pressKeys_increments (es : List KeyEvent) (w : World) (hw : FogInv w)
    (h : ∀ e ∈ es, e.key = '1' ∨ e.key = '2' ∨ e.key = '3') :
    ∃ w', pressKeys es w = .running w' ∧
      w'.f1 = min (w.f1 + 1/4 * ((es.countP fun e => e.key = '1' : ℕ) : ℚ)) 4194304 ∧
      w'.f2 = min (w.f2 + 1/4 * ((es.countP fun e => e.key = '2' : ℕ) : ℚ)) 4194304 ∧
      w'.f3 = min (w.f3 + 1/4 * ((es.countP fun e => e.key = '3' : ℕ) : ℚ)) 4194304 ∧
      w'.fogCoordSrc = w.fogCoordSrc ∧ w'.modelview = w.modelview ∧ viewZ w' = viewZ w := by
  induction es generalizing w with
  | nil =>
    obtain ⟨h1, h2, h3⟩ := hw
    exact ⟨w, rfl, by simp [h1.ceiling], by simp [h2.ceiling], by simp [h3.ceiling],
      rfl, rfl, rfl⟩
  | cons e es ih =>
    have hes : ∀ e' ∈ es, e'.key = '1' ∨ e'.key = '2' ∨ e'.key = '3' :=
      fun e' he' => h e' (List.mem_cons_of_mem _ he')
    obtain ⟨hw1, hw2, hw3⟩ := hw
    rcases h e (List.mem_cons_self _ _) with he | he | he
    · obtain ⟨w', hw', h1, h2, h3, h4, h5, h6⟩ :=
        ih { w with f1 := toGLfloat (w.f1 + 1/4), redisplay := true } ⟨hw1.add, hw2, hw3⟩ hes
      refine ⟨w', ?_, ?_, ?_, ?_, h4, h5, h6⟩
      · rw [pressKeys_cons_running e es w _ (by rw [he]; exact keyboard_1 _ _ _)]; exact hw'
      · rw [h1]
        show min (toGLfloat (w.f1 + 1/4) + _) _ = _
        rw [toGLfloat_add_quarter hw1, min_add_quarter_cap _ _ (Nat.cast_nonneg _)]
        simp [List.countP_cons, he]
      · rw [h2]; simp [List.countP_cons, he]
      · rw [h3]; simp [List.countP_cons, he]
    · obtain ⟨w', hw', h1, h2, h3, h4, h5, h6⟩ :=
        ih { w with f2 := toGLfloat (w.f2 + 1/4), redisplay := true } ⟨hw1, hw2.add, hw3⟩ hes
      refine ⟨w', ?_, ?_, ?_, ?_, h4, h5, h6⟩
      · rw [pressKeys_cons_running e es w _ (by rw [he]; exact keyboard_2 _ _ _)]; exact hw'
      · rw [h1]; simp [List.countP_cons, he]
      · rw [h2]
        show min (toGLfloat (w.f2 + 1/4) + _) _ = _
        rw [toGLfloat_add_quarter hw2, min_add_quarter_cap _ _ (Nat.cast_nonneg _)]
        simp [List.countP_cons, he]
      · rw [h3]; simp [List.countP_cons, he]
    · obtain ⟨w', hw', h1, h2, h3, h4, h5, h6⟩ :=
        ih { w with f3 := toGLfloat (w.f3 + 1/4), redisplay := true } ⟨hw1, hw2, hw3.add⟩ hes
      refine ⟨w', ?_, ?_, ?_, ?_, h4, h5, h6⟩
      · rw [pressKeys_cons_running e es w _ (by rw [he]; exact keyboard_3 _ _ _)]; exact hw'
      · rw [h1]; simp [List.countP_cons, he]
      · rw [h2]; simp [List.countP_cons, he]
      · rw [h3]
        show min (toGLfloat (w.f3 + 1/4) + _) _ = _
        rw [toGLfloat_add_quarter hw3, min_add_quarter_cap _ _ (Nat.cast_nonneg _)]
        simp [List.countP_cons, he]

/-- A value on the grid is never strictly between one quarter and one half. -/
theorem QuarterStep.not_just_above_floor {q : ℚ} (h : QuarterStep q) (ε : ℚ)
    (h0 : 0 < ε) (h1 : ε < 1/4) : q ≠ 1/4 + ε := by
  obtain ⟨n, _, _, rfl⟩ := h
  intro heq
  have hlo : (1 : ℚ) < n := by linarith
  have hhi : (n : ℚ) < 2 := by linarith
  have hlo' : 1 < n := by exact_mod_cast hlo
  have hhi' : n < 2 := by exact_mod_cast hhi
  omega

/-- No state reached from `init()` by key presses has a fog value strictly
between one quarter and one half. -/
theorem fog_value_never_just_above_floor (s : World) (es : List KeyEvent) (w : World)
    (h : pressKeys es (init s) = .running w) (ε : ℚ) (h0 : 0 < ε) (h1 : ε < 1/4) :
    w.f1 ≠ 1/4 + ε ∧ w.f2 ≠ 1/4 + ε ∧ w.f3 ≠ 1/4 + ε := by
  obtain ⟨q1, q2, q3⟩ := pressKeys_fogInv es (init s) w (init_fogInv s) h
  exact ⟨q1.not_just_above_floor ε h0 h1, q2.not_just_above_floor ε h0 h1,
    q3.not_just_above_floor ε h0 h1⟩

/-! ## The properties -/

/-- C9: after `init()` the fog values are exactly (1, 5, 10) and the fog
coordinate source is the explicit per-vertex coordinate
(`GL_FOG_COORDINATE_EXT`), whatever the state before the call. -/
theorem init_sets_initial_state (w : World) :
    (init w).f1 = 1 ∧ (init w).f2 = 5 ∧ (init w).f3 = 10 ∧
    (init w).fogCoordSrc = GL_FOG_COORDINATE_EXT :=
  ⟨rfl, rfl, rfl, rfl⟩

/-- C8: key `C` selects the explicit coordinate and key `c` the fragment depth
whatever the mode was; a second press of the same key returns the very same
state; neither key touches the fog values or the view transform. -/
theorem mode_keys_idempotent (x y x' y' : Int) (w : World) :
    (∃ w1, keyboard 'C' x y w = .running w1 ∧
      w1.fogCoordSrc = GL_FOG_COORDINATE_EXT ∧
      keyboard 'C' x' y' w1 = .running w1 ∧
      w1.f1 = w.f1 ∧ w1.f2 = w.f2 ∧ w1.f3 = w.f3 ∧
      w1.modelview = w.modelview ∧ viewZ w1 = viewZ w) ∧
    (∃ w1, keyboard 'c' x y w = .running w1 ∧
      w1.fogCoordSrc = GL_FRAGMENT_DEPTH_EXT ∧
      keyboard 'c' x' y' w1 = .running w1 ∧
      w1.f1 = w.f1 ∧ w1.f2 = w.f2 ∧ w1.f3 = w.f3 ∧
      w1.modelview = w.modelview ∧ viewZ w1 = viewZ w) :=
  ⟨⟨_, keyboard_C x y w, rfl, rfl, rfl, rfl, rfl, rfl, rfl⟩,
   ⟨_, keyboard_c x y w, rfl, rfl, rfl, rfl, rfl, rfl, rfl⟩⟩

/-- C7: key `f` moves the view by +1/4 along the view axis and key `b` by
-1/4; `f` then `b`, and `b` then `f`, give back the view position there was
before, with the fog values and the fog coordinate source untouched. -/
theorem forward_backward_inverse (x y x' y' : Int) (w : World) :
    (∃ w1 w2, keyboard 'f' x y w = .running w1 ∧ keyboard 'b' x' y' w1 = .running w2 ∧
      w2.modelview = w.modelview ++ [.translate 0 0 (1/4), .translate 0 0 (-1/4)] ∧
      viewZ w1 = (viewZ w).map (fun d => d + 1/4) ∧ viewZ w2 = viewZ w ∧
      w2.f1 = w.f1 ∧ w2.f2 = w.f2 ∧ w2.f3 = w.f3 ∧ w2.fogCoordSrc = w.fogCoordSrc) ∧
    (∃ w1 w2, keyboard 'b' x y w = .running w1 ∧ keyboard 'f' x' y' w1 = .running w2 ∧
      w2.modelview = w.modelview ++ [.translate 0 0 (-1/4), .translate 0 0 (1/4)] ∧
      viewZ w1 = (viewZ w).map (fun d => d - 1/4) ∧ viewZ w2 = viewZ w ∧
      w2.f1 = w.f1 ∧ w2.f2 = w.f2 ∧ w2.f3 = w.f3 ∧ w2.fogCoordSrc = w.fogCoordSrc) := by
  refine ⟨⟨_, _, keyboard_f x y w, keyboard_b x' y' _, by simp, ?_, ?_, rfl, rfl, rfl, rfl⟩,
    ⟨_, _, keyboard_b x y w, keyboard_f x' y' _, by simp, ?_, ?_, rfl, rfl, rfl, rfl⟩⟩
  · exact viewZ_translate w _ _ _
  · rw [viewZ_translate, viewZ_translate]
    cases viewZ w with
    | none => rfl
    | some d => simp only [Option.map_some', Option.some.injEq]; ring
  · rw [viewZ_translate]
    cases viewZ w with
    | none => rfl
    | some d => simp only [Option.map_some', Option.some.injEq]; ring
  · rw [viewZ_translate, viewZ_translate]
    cases viewZ w with
    | none => rfl
    | some d => simp only [Option.map_some', Option.some.injEq]; ring

/-- C6, as stated, fails: after `init()` and 16777213 presses of `1` the value
`f1` is 4194304, not 1 + 0.25 * 16777213 = 4194304.25: the last press found
`f1` at 4194304, where the sum is rounded back to 4194304 on the store into
the 32-bit `GLfloat`. -/
theorem increments_exact_counterexample :
    ∃ w, pressKeys (List.replicate 16777213 (press '1')) (init World.start) = .running w ∧
      w.f1 = 4194304 ∧ w.f1 ≠ (init World.start).f1 + 1/4 * 16777213 := by
  have hkeys : ∀ e ∈ List.replicate 16777213 (press '1'),
      e.key = '1' ∨ e.key = '2' ∨ e.key = '3' := by
    intro e he
    rw [List.eq_of_mem_replicate he]
    exact Or.inl rfl
  obtain ⟨w, hw, h1, -⟩ :=
    pressKeys_increments _ (init World.start) (init_fogInv World.start) hkeys
  have hcount : (List.replicate 16777213 (press '1')).countP (fun e => e.key = '1')
      = 16777213 := by
    rw [List.countP_replicate]
    exact if_pos (by decide)
  rw [hcount] at h1
  have hf : w.f1 = 4194304 := by
    rw [h1]
    show min ((1 : ℚ) + 1/4 * ((16777213 : ℕ) : ℚ)) 4194304 = 4194304
    exact min_eq_right (by norm_num)
  refine ⟨w, hw, hf, ?_⟩
  rw [hf]
  show (4194304 : ℚ) ≠ 1 + 1/4 * 16777213
  norm_num

/-- C6, amended: from any state reached from `init()` by key presses, a
sequence of presses of `1`, `2`, `3` always runs to the end and adds exactly
one quarter to a fog value for each press of its own key as long as the value
is below 4194304, where it stays: each fog value is its starting value plus a
quarter of the number of presses of its key, capped at 4194304.  The fog
coordinate source and the view transform stay as they were. -/
theorem increments_exact_capped (s : World) (es0 : List KeyEvent) (w : World)
    (es : List KeyEvent) (h0 : pressKeys es0 (init s) = .running w)
    (h : ∀ e ∈ es, e.key = '1' ∨ e.key = '2' ∨ e.key = '3') :
    ∃ w', pressKeys es w = .running w' ∧
      w'.f1 = min (w.f1 + 1/4 * ((es.countP fun e => e.key = '1' : ℕ) : ℚ)) 4194304 ∧
      w'.f2 = min (w.f2 + 1/4 * ((es.countP fun e => e.key = '2' : ℕ) : ℚ)) 4194304 ∧
      w'.f3 = min (w.f3 + 1/4 * ((es.countP fun e => e.key = '3' : ℕ) : ℚ)) 4194304 ∧
      w'.fogCoordSrc = w.fogCoordSrc ∧ w'.modelview = w.modelview ∧ viewZ w' = viewZ w :=
  pressKeys_increments es w (pressKeys_fogInv es0 (init s) w (init_fogInv s) h0) h

/-- Witness for C6 as amended: after `init()` and a press of `c`, the keys `1`,
`2`, `1`. -/
theorem increments_exact_capped_witness :
    pressKeys [press 'c'] (init World.start) =
      .running { init World.start with fogCoordSrc := GL_FRAGMENT_DEPTH_EXT,
                                       redisplay := true } ∧
    (∀ e ∈ [press '1', press '2', press '1'], e.key = '1' ∨ e.key = '2' ∨ e.key = '3') ∧
    ∃ w', pressKeys [press '1', press '2', press '1']
        { init World.start with fogCoordSrc := GL_FRAGMENT_DEPTH_EXT, redisplay := true }
        = .running w' ∧
      w'.f1 = min ((1 : ℚ) +
        1/4 * (([press '1', press '2', press '1'].countP fun e => e.key = '1' : ℕ) : ℚ))
        4194304 ∧
      w'.f2 = min ((5 : ℚ) +
        1/4 * (([press '1', press '2', press '1'].countP fun e => e.key = '2' : ℕ) : ℚ))
        4194304 ∧
      w'.f3 = min ((10 : ℚ) +
        1/4 * (([press '1', press '2', press '1'].countP fun e => e.key = '3' : ℕ) : ℚ))
        4194304 ∧
      w'.fogCoordSrc = GL_FRAGMENT_DEPTH_EXT ∧
      w'.modelview = (init World.start).modelview ∧ viewZ w' = viewZ (init World.start) :=
  ⟨rfl, by simp [press],
   increments_exact_capped World.start [press 'c'] _ [press '1', press '2', press '1'] rfl
     (by simp [press])⟩

/-- C10: from the state set by `init()`, after any sequence of key presses
each fog value is an integer multiple of one quarter, is at least one quarter
and so is positive; and in every state a decrement key pressed when its value
is one quarter (or less) returns the very same state: no value changes and no
redraw is requested. -/
theorem fog_floor_invariant (s : World) (es : List KeyEvent) (w : World)
    (h : pressKeys es (init s) = .running w) :
    ((∃ n : ℤ, w.f1 = n * (1/4)) ∧ 1/4 ≤ w.f1 ∧ 0 < w.f1) ∧
    ((∃ n : ℤ, w.f2 = n * (1/4)) ∧ 1/4 ≤ w.f2 ∧ 0 < w.f2) ∧
    ((∃ n : ℤ, w.f3 = n * (1/4)) ∧ 1/4 ≤ w.f3 ∧ 0 < w.f3) ∧
    (∀ (v : World) (x y : Int), v.f1 ≤ 1/4 → keyboard '8' x y v = .running v) ∧
    (∀ (v : World) (x y : Int), v.f2 ≤ 1/4 → keyboard '9' x y v = .running v) ∧
    (∀ (v : World) (x y : Int), v.f3 ≤ 1/4 → keyboard '0' x y v = .running v) := by
  obtain ⟨h1, h2, h3⟩ := pressKeys_fogInv es (init s) w (init_fogInv s) h
  refine ⟨⟨h1.multiple, h1.floor, by linarith [h1.floor]⟩,
    ⟨h2.multiple, h2.floor, by linarith [h2.floor]⟩,
    ⟨h3.multiple, h3.floor, by linarith [h3.floor]⟩, ?_, ?_, ?_⟩
  · intro v x y hf
    rw [keyboard_8, if_neg (not_lt.2 hf)]
  · intro v x y hf
    rw [keyboard_9, if_neg (not_lt.2 hf)]
  · intro v x y hf
    rw [keyboard_0, if_neg (not_lt.2 hf)]

/-- The state after `init()` and three presses of `8`: `f1` is down to one
quarter. -/
theorem pressKeys_eight_thrice :
    pressKeys [press '8', press '8', press '8'] (init World.start) =
      .running { init World.start with f1 := 1/4, redisplay := true } := by
  have h3 : toGLfloat (3/4) = 3/4 := by simpa using toGLfloat_quarter 3 (by norm_num)
  have h2 : toGLfloat (1/2) = 1/2 := by
    have := toGLfloat_quarter 2 (by norm_num)
    norm_num at this
    exact this
  have h1 : toGLfloat (1/4) = 1/4 := by simpa using toGLfloat_quarter 1 (by norm_num)
  norm_num [pressKeys, press, keyboard_8, init_eq, h3, h2, h1]

/-- Witness for C10: `8` pressed three times after `init()` brings `f1` to one
quarter; in that state once the pending redraw has been served (`redisplay`
false), a fourth press returns the same state, still with no redraw pending. -/
theorem fog_floor_invariant_witness :
    pressKeys [press '8', press '8', press '8'] (init World.start) =
      .running { init World.start with f1 := 1/4, redisplay := true } ∧
    (0 : ℚ) < ({ init World.start with f1 := 1/4, redisplay := true } : World).f1 ∧
    ({ init World.start with f1 := 1/4, redisplay := false } : World).f1 ≤ 1/4 ∧
    keyboard '8' 0 0 { init World.start with f1 := 1/4, redisplay := false } =
      .running { init World.start with f1 := 1/4, redisplay := false } :=
  ⟨pressKeys_eight_thrice,
   (fog_floor_invariant World.start _ _ pressKeys_eight_thrice).1.2.2,
   le_refl _,
   (fog_floor_invariant World.start _ _ pressKeys_eight_thrice).2.2.2.1 _ 0 0 (le_refl _)⟩

/-- C1, as stated, fails: after `init()` and twenty presses of `9` (six, then
fourteen more) `f2` is exactly one quarter, which is not above one quarter and
is not one half. -/
theorem fog_strict_floor_counterexample :
    ∃ w, pressKeys (List.replicate 20 (press '9')) (init World.start) = .running w ∧
      w.f2 = 1/4 ∧ ¬ (1/4 < w.f2) ∧ w.f2 ≠ 1/2 := by
  obtain ⟨w, hw, hf⟩ := pressKeys_nine 20 19 (init World.start) (by norm_num)
    (by rw [init_eq]; norm_num)
  have hq : w.f2 = 1/4 := by rw [hf]; norm_num
  exact ⟨w, hw, hq, by rw [hq]; norm_num, by rw [hq]; norm_num⟩

/-- C1, amended: from the state set by `init()`, after any sequence of key
presses each fog value is at least one quarter (one quarter itself is
reached).  After `init()`, six presses of `9` give `f2 = 3.5`; thirteen more
bring it to one quarter, and the fourteenth changes nothing. -/
theorem fog_floor_reachable (s : World) (es : List KeyEvent) (w : World)
    (h : pressKeys es (init s) = .running w) :
    (1/4 ≤ w.f1 ∧ 1/4 ≤ w.f2 ∧ 1/4 ≤ w.f3) ∧
    ∃ w6 w19, pressKeys (List.replicate 6 (press '9')) (init s) = .running w6 ∧
      w6.f2 = 7/2 ∧
      pressKeys (List.replicate 13 (press '9')) w6 = .running w19 ∧ w19.f2 = 1/4 ∧
      pressKeys (List.replicate 14 (press '9')) w6 = .running w19 := by
  obtain ⟨h1, h2, h3⟩ := pressKeys_fogInv es (init s) w (init_fogInv s) h
  refine ⟨⟨h1.floor, h2.floor, h3.floor⟩, ?_⟩
  obtain ⟨w6, hw6, hf6⟩ := pressKeys_nine 6 19 (init s) (by norm_num)
    (by rw [init_eq]; norm_num)
  obtain ⟨w19, hw19, hf19⟩ := pressKeys_nine 13 13 w6 (by norm_num) hf6
  have hq : w19.f2 = 1/4 := by rw [hf19]; norm_num
  have hlast : pressKeys [press '9'] w19 = .running w19 := by
    have hkey : keyboard (press '9').key (press '9').x (press '9').y w19 = .running w19 := by
      show keyboard '9' 0 0 w19 = _
      rw [keyboard_9, if_neg (by rw [hq]; exact lt_irrefl _)]
    rw [pressKeys_cons_running _ _ _ _ hkey]; rfl
  refine ⟨w6, w19, hw6, by rw [hf6]; norm_num, hw19, hq, ?_⟩
  have hsplit : List.replicate 14 (press '9') = List.replicate 13 (press '9') ++ [press '9'] := rfl
  rw [hsplit, pressKeys_append _ _ _ _ hw19, hlast]

/-- Witness for C1 as amended: `0` and then an unbound key pressed after
`init()`. -/
theorem fog_floor_reachable_witness :
    pressKeys [press '0', press 'x'] (init World.start) =
      .running { init World.start with f3 := 39/4, redisplay := true } ∧
    (1/4 : ℚ) ≤ ({ init World.start with f3 := 39/4, redisplay := true } : World).f3 :=
  have hrun : pressKeys [press '0', press 'x'] (init World.start) =
      .running { init World.start with f3 := 39/4, redisplay := true } := by
    have h39 : toGLfloat (39/4) = 39/4 := by simpa using toGLfloat_quarter 39 (by norm_num)
    norm_num [pressKeys, press, keyboard_0, init_eq, keyboard_x, h39]
  ⟨hrun, (fog_floor_reachable World.start _ _ hrun).1.2.2⟩

/-- C3, as stated, fails: after `c` the fog coordinate source is the fragment
depth, and the frame `display` issues still holds the fog coordinate calls. -/
theorem display_depth_mode_counterexample :
    ∃ w, keyboard 'c' 0 0 (init World.start) = .running w ∧
      w.fogCoordSrc = GL_FRAGMENT_DEPTH_EXT ∧
      Cmd.fogCoordf 1 ∈ (display w).commands ∧
      Cmd.fogCoordf 5 ∈ (display w).commands ∧
      Cmd.fogCoordf 10 ∈ (display w).commands := by
  refine ⟨_, keyboard_c _ _ _, rfl, ?_, ?_, ?_⟩ <;>
    simp [display_eq, init_eq]

/-- C3, amended: in every state, whatever the fog coordinate source,
`display` issues: clear, set colour, begin triangles, then for each of the
vertices (2,-2,0), (-2,0,-5), (0,2,-10) the fog coordinate call with `f1`,
`f2`, `f3` immediately followed by the vertex, then end and buffer swap; it
changes nothing else.  The frame after key `c` and the frame after key `C` are
this same frame. -/
theorem display_frame (w : World) (x y : Int) :
    display w = { w with commands := w.commands ++
      [.clear GL_COLOR_BUFFER_BIT, .color3f 1 (3/4) 0, .glBegin GL_TRIANGLES,
       .fogCoordf w.f1, .vertex3f 2 (-2) 0,
       .fogCoordf w.f2, .vertex3f (-2) 0 (-5),
       .fogCoordf w.f3, .vertex3f 0 2 (-10),
       .glEnd, .swapBuffers] } ∧
    (∃ w1, keyboard 'c' x y w = .running w1 ∧ w1.fogCoordSrc = GL_FRAGMENT_DEPTH_EXT ∧
      (display w1).commands = (display w).commands) ∧
    (∃ w1, keyboard 'C' x y w = .running w1 ∧ w1.fogCoordSrc = GL_FOG_COORDINATE_EXT ∧
      (display w1).commands = (display w).commands) := by
  refine ⟨display_eq w, ⟨_, keyboard_c x y w, rfl, ?_⟩, ⟨_, keyboard_C x y w, rfl, ?_⟩⟩ <;>
    simp [display_eq]

/-- C4, as stated, fails: after `init()`, the first `reshape` and one press of
`f` the view is at -5 + 0.25; a resize puts it back at -5. -/
theorem reshape_keeps_camera_counterexample :
    ∃ s, keyboard 'f' 0 0 (reshape 500 500 (init World.start)) = .running s ∧
      viewZ s = some (-5 + 1/4) ∧
      viewZ (reshape 500 500 s) = some (-5) ∧
      viewZ (reshape 500 500 s) ≠ some (-5 + 1/4) := by
  refine ⟨_, keyboard_f _ _ _, ?_, ?_, ?_⟩
  · rw [viewZ_translate]
    simp [viewZ, reshape_modelview, translationOf]
  · simp [viewZ, reshape_modelview, translationOf]
  · simp [viewZ, reshape_modelview, translationOf]

/-- C4, amended: for every state and every positive width and height, after
`reshape(w, h)` the modelview matrix is the translation by -5 along the view
axis alone; whatever had been accumulated by `f` and `b` is discarded. -/
theorem reshape_resets_camera (s : World) (w h : Int) (hw : 0 < w) (hh : 0 < h) :
    (reshape w h s).modelview = [.translate 0 0 (-5)] ∧
    viewZ (reshape w h s) = some (-5) := by
  have _hw := hw
  have _hh := hh
  refine ⟨reshape_modelview w h s, ?_⟩
  simp [viewZ, reshape_modelview, translationOf]

/-- Witness for C4 as amended: a resize to 640 by 480 after the view has been
moved forward. -/
theorem reshape_resets_camera_witness :
    (0 : Int) < 640 ∧ (0 : Int) < 480 ∧
    (reshape 640 480 { init World.start with modelview := [.translate 0 0 (-5), .translate 0 0 (1/4)] }).modelview
      = [.translate 0 0 (-5)] ∧
    viewZ (reshape 640 480
      { init World.start with modelview := [.translate 0 0 (-5), .translate 0 0 (1/4)] })
      = some (-5) :=
  ⟨by decide, by decide, reshape_resets_camera _ 640 480 (by decide) (by decide)⟩

/-- C5, as stated, fails: a resize to 1000 by 500 sets the aspect ratio 1, not
1000 / 500 = 2. -/
theorem reshape_aspect_counterexample :
    (reshape 1000 500 (init World.start)).projection = [.perspective 45 1 (1/4) 25] ∧
    (reshape 1000 500 (init World.start)).projection ≠
      [.perspective 45 ((1000 : ℚ) / (500 : ℚ)) (1/4) 25] := by
  rw [reshape_projection]
  refine ⟨rfl, ?_⟩
  norm_num

/-- C5, amended: for every positive width `w` and height `h`, `reshape(w, h)`
sets the viewport to `w` by `h` at the origin and the projection to the
perspective with field of view 45, near 0.25, far 25 and the fixed aspect
ratio 1. -/
theorem reshape_projection_fixed_aspect (s : World) (w h : Int) (hw : 0 < w) (hh : 0 < h) :
    (reshape w h s).viewport = ⟨0, 0, w, h⟩ ∧
    (reshape w h s).projection = [.perspective 45 1 (1/4) 25] := by
  rw [reshape_eq w h s (le_of_lt hw) (le_of_lt hh)]
  exact ⟨rfl, rfl⟩

/-- Witness for C5 as amended: a resize to 1000 by 500. -/
theorem reshape_projection_fixed_aspect_witness :
    (0 : Int) < 1000 ∧ (0 : Int) < 500 ∧
    (reshape 1000 500 (init World.start)).viewport = ⟨0, 0, 1000, 500⟩ ∧
    (reshape 1000 500 (init World.start)).projection = [.perspective 45 1 (1/4) 25] :=
  ⟨by decide, by decide, reshape_projection_fixed_aspect _ 1000 500 (by decide) (by decide)⟩

end FogCoord
